/-
Verification of the core pipeline of the interstitial-journaling visualizer
(parser, categorizer, analyzer) against its specification.

Modelling conventions (shallow embedding of the JavaScript source):
- JS strings are modelled as `List Char` where their characters are scanned
  (log lines, entry content), and as Lean `String` where they are only
  compared for equality (category labels).
- `"HH:MM"` time strings are modelled as a `Time` structure of two `Nat`
  fields.  The source always produces them from the `\d{2}:\d{2}` regex
  groups, so they are zero-padded two-digit fields; on such strings JS
  `localeCompare` / string equality coincide with the lexicographic order /
  equality on `(hour, minute)`, which is how they are modelled here.
- JS numbers are modelled as `Nat` / `Int` where the source only ever holds
  integers, and as `ℚ` (exact rationals) where the source divides; `Math.round`
  is modelled as `⌊q + 1/2⌋` (round half towards +∞), which is its behaviour
  on all JS numbers.
- In-place mutation of the entries array is modelled by functions returning
  the updated list.
- `Array.prototype.sort` (stable since ES2019) with the ascending
  `localeCompare` comparator is modelled by `List.insertionSort`, which is
  also stable, over the same total preorder: two stable sorts with the same
  preorder produce the same list.
-/
import Mathlib

namespace JournalViz

/-- A wall-clock time of day, modelling a zero-padded `"HH:MM"` string. -/
structure Time where
  hour : Nat
  minute : Nat
deriving DecidableEq, Repr

/-- Minutes since midnight: `hour * TIME.MINUTES_PER_HOUR + minute`. -/
def Time.toMinutes (t : Time) : Int :=
  t.hour * 60 + t.minute

/- The constants `CATEGORIES.*` of `constants.js`. -/
namespace CATEGORIES

def WORK : String := "工作"

def ROUTINE : String := "日常"

def DEVELOPMENT : String := "學習"

def FAMILY : String := "家庭"

def SOCIAL : String := "社交"

def RELAX_BED : String := "休息"

end CATEGORIES

/-- The fixed closed six-element category set of the spec's glossary:
{work, routine, development, family, social, resting}. -/
def categorySet : List String :=
  [CATEGORIES.WORK, CATEGORIES.ROUTINE, CATEGORIES.DEVELOPMENT,
   CATEGORIES.FAMILY, CATEGORIES.SOCIAL, CATEGORIES.RELAX_BED]

/-- A parsed log entry (the `Entry` objects built by `parser.js`).
`content` is a JS string modelled as a char list; `category` is one of the
JS category-label strings (duck-typed: nothing restricts it to the set). -/
structure Entry where
  id : Nat
  start : Time
  «end» : Time
  content : List Char
  immersion : Nat
  duration : Int
  category : String
deriving DecidableEq, Repr

/-- Function `calculateDuration` of `parser.js`: minutes between two times, adding
`TIME.MINUTES_PER_DAY = 1440` when the raw difference is negative
(overnight entries). -/
def calculateDuration (start «end» : Time) : Int :=
  let minutes : Int := «end».toMinutes - start.toMinutes
  if minutes < 0 then minutes + 1440 else minutes

/-- Unfolding lemma for `calculateDuration`. -/
theorem calculateDuration_eq (start «end» : Time) :
    calculateDuration start «end» =
      if «end».toMinutes - start.toMinutes < 0 then
        «end».toMinutes - start.toMinutes + 1440
      else «end».toMinutes - start.toMinutes := rfl

/-- A time is valid when its hour is in `0..23` and minute in `0..59`. -/
def Time.Valid (t : Time) : Prop :=
  t.hour < 24 ∧ t.minute < 60

instance (t : Time) : Decidable t.Valid := by
  unfold Time.Valid; infer_instance

/-- C2: for valid times, `calculateDuration start end` equals
`(end_minutes - start_minutes + 1440) mod 1440`, lies in `[0, 1439]`,
and is `0` (not `1440`) when `start = end`. -/
theorem calculateDuration_spec (start «end» : Time)
    (hs : start.Valid) (he : «end».Valid) :
    calculateDuration start «end» =
      («end».toMinutes - start.toMinutes + 1440) % 1440 ∧
    0 ≤ calculateDuration start «end» ∧
    calculateDuration start «end» ≤ 1439 ∧
    (start = «end» → calculateDuration start «end» = 0) := by
  obtain ⟨hsh, hsm⟩ := hs
  obtain ⟨heh, hem⟩ := he
  rw [calculateDuration_eq]
  unfold Time.toMinutes
  constructor
  · split <;> omega
  refine ⟨by split <;> omega, by split <;> omega, ?_⟩
  rintro rfl
  split <;> omega

/-- Witness for C2 at the concrete overnight pair 23:30 → 00:15. -/
theorem calculateDuration_spec_witness :
    calculateDuration ⟨23, 30⟩ ⟨0, 15⟩ =
      ((Time.toMinutes ⟨0, 15⟩) - (Time.toMinutes ⟨23, 30⟩) + 1440) % 1440 ∧
    0 ≤ calculateDuration ⟨23, 30⟩ ⟨0, 15⟩ ∧
    calculateDuration ⟨23, 30⟩ ⟨0, 15⟩ ≤ 1439 ∧
    ((⟨23, 30⟩ : Time) = ⟨0, 15⟩ → calculateDuration ⟨23, 30⟩ ⟨0, 15⟩ = 0) :=
  calculateDuration_spec ⟨23, 30⟩ ⟨0, 15⟩ (by decide) (by decide)

/-- JS `String.prototype.trim`: strip whitespace from both ends. -/
def trimChars (cs : List Char) : List Char :=
  ((cs.dropWhile Char.isWhitespace).reverse.dropWhile Char.isWhitespace).reverse

/-- JS `rawText.split('\n')`: split into lines, keeping empty pieces. -/
def splitLines : List Char → List (List Char)
  | [] => [[]]
  | c :: rest =>
    if c = '\n' then [] :: splitLines rest
    else
      match splitLines rest with
      | l :: ls => (c :: l) :: ls
      | [] => [[c]]

/-- The regexes `PATTERNS.THOUGHT` = `/^\s*[-]?\s*>\s*(.*)/` and
`PATTERNS.ACTION` = `/^\s*[-]?\s*v\s*(.*)/`, which differ only in the
marker character: optional leading whitespace, optional `-`, whitespace,
the marker, then the captured rest with its leading whitespace consumed
by the greedy `\s*`.  Returns the capture group on a match. -/
def matchAnnotationLine (marker : Char) (cs : List Char) : Option (List Char) :=
  let cs1 := cs.dropWhile Char.isWhitespace
  let cs2 :=
    match cs1 with
    | '-' :: t => t
    | _ => cs1
  let cs3 := cs2.dropWhile Char.isWhitespace
  match cs3 with
  | c :: rest => if c = marker then some (rest.dropWhile Char.isWhitespace) else none
  | [] => none

/-- Numeric value of a decimal digit character. -/
def digitVal (c : Char) : Nat :=
  c.toNat - '0'.toNat

/-- Match `\d{2}:\d{2}` at the head of the list, returning the time and the
remaining characters. -/
def matchHHMM : List Char → Option (Time × List Char)
  | a :: b :: ':' :: c :: d :: rest =>
    if a.isDigit && b.isDigit && c.isDigit && d.isDigit then
      some (⟨digitVal a * 10 + digitVal b, digitVal c * 10 + digitVal d⟩, rest)
    else none
  | _ => none

/-- Match `PATTERNS.TIME_HEADER` = `/(\d{2}:\d{2})\s*~\s*(\d{2}:\d{2})/`
anchored at the head of the list: start time, `~` with surrounding
whitespace, end time.  Returns `(start, end, rest after the match)`. -/
def matchTimeHeaderAt (cs : List Char) : Option (Time × Time × List Char) :=
  match matchHHMM cs with
  | none => none
  | some (s, r1) =>
    match r1.dropWhile Char.isWhitespace with
    | '~' :: r2 =>
      match matchHHMM (r2.dropWhile Char.isWhitespace) with
      | none => none
      | some (e, r3) => some (s, e, r3)
    | _ => none

/-- Leftmost match of the unanchored `PATTERNS.TIME_HEADER` regex.  The
source takes the substring after the matched text (`line.indexOf(timePart)
+ timePart.length`); since the regex match is leftmost, that substring is
the rest after the match. -/
def findTimeHeader : List Char → Option (Time × Time × List Char)
  | [] => none
  | c :: cs =>
    match matchTimeHeaderAt (c :: cs) with
    | some r => some r
    | none => findTimeHeader cs

/-- A bar glyph of `PATTERNS.BARS` = `/([❚|]+)/`. -/
def isBar (c : Char) : Bool :=
  c = '❚' || c = '|'

/-- Leftmost maximal run of bar characters, as matched by `PATTERNS.BARS`.
Returns `(before, run, after)`.  The source removes the matched run with
`rest.replace(barsMatch[0], '')`; the first occurrence of the matched
string is the matched run itself, so removal yields `before ++ after`. -/
def findBars : List Char → Option (List Char × List Char × List Char)
  | [] => none
  | c :: cs =>
    if isBar c then some ([], (c :: cs).takeWhile isBar, (c :: cs).dropWhile isBar)
    else
      match findBars cs with
      | some (pre, run, post) => some (c :: pre, run, post)
      | none => none

/-- Function `parseTimeEntry` of `parser.js`: build an entry from a matched time
header.  `tm` is `(start, end, rest-after-match)`; `index` is the 0-based
line index.  `calculateImmersionLevel` is the bar-run length. -/
def parseTimeEntry (tm : Time × Time × List Char) (index : Nat) : Entry :=
  let immersion :=
    match findBars tm.2.2 with
    | some (_, run, _) => run.length
    | none => 0
  let body :=
    match findBars tm.2.2 with
    | some (pre, _, post) => pre ++ post
    | none => tm.2.2
  { id := index + 1
    start := tm.1
    «end» := tm.2.1
    content := trimChars body
    immersion := immersion
    duration := calculateDuration tm.1 tm.2.1
    category := CATEGORIES.ROUTINE }

/-- The result record of `parseLogText`. -/
structure Parsed where
  entries : List Entry
  thoughts : List (List Char)
  actions : List (List Char)
deriving DecidableEq, Repr

/-- The body of the `forEach` in `parseLogText`: classify one (trimmed)
line as blank / thought / action / time header and extend the
accumulated result. -/
def processLine (acc : Parsed) (line : List Char) (index : Nat) : Parsed :=
  let cleanLine := trimChars line
  if cleanLine.isEmpty then acc
  else
    match matchAnnotationLine '>' cleanLine with
    | some t => { acc with thoughts := acc.thoughts ++ [trimChars t] }
    | none =>
      match matchAnnotationLine 'v' cleanLine with
      | some a => { acc with actions := acc.actions ++ [trimChars a] }
      | none =>
        match findTimeHeader cleanLine with
        | some tm => { acc with entries := acc.entries ++ [parseTimeEntry tm index] }
        | none => acc

/-- The indexed `forEach` loop of `parseLogText`. -/
def parseLogLoop : Parsed → List (List Char) → Nat → Parsed
  | acc, [], _ => acc
  | acc, l :: ls, i => parseLogLoop (processLine acc l i) ls (i + 1)

/-- Function `parseLogText` of `parser.js`: split the raw text into lines and fold
the per-line classifier over them with their indices. -/
def parseLogText (rawText : List Char) : Parsed :=
  parseLogLoop ⟨[], [], []⟩ (splitLines rawText) 0

/-- The entry (if any) contributed by the line at the given index: the
time-header branch of `processLine` as a partial function. -/
def lineEntry (line : List Char) (index : Nat) : Option Entry :=
  let cleanLine := trimChars line
  if cleanLine.isEmpty then none
  else if (matchAnnotationLine '>' cleanLine).isSome then none
  else if (matchAnnotationLine 'v' cleanLine).isSome then none
  else (findTimeHeader cleanLine).map (parseTimeEntry · index)

theorem processLine_entries (acc : Parsed) (line : List Char) (index : Nat) :
    (processLine acc line index).entries =
      acc.entries ++ (lineEntry line index).toList := by
  unfold processLine lineEntry
  dsimp only
  split
  · simp
  · rcases h1 : matchAnnotationLine '>' (trimChars line) with _ | t
    · rcases h2 : matchAnnotationLine 'v' (trimChars line) with _ | a
      · rcases h3 : findTimeHeader (trimChars line) with _ | tm <;> simp [h1, h2, h3]
      · simp [h1, h2]
    · simp [h1]

theorem parseLogLoop_entries (ls : List (List Char)) (acc : Parsed) (i : Nat) :
    (parseLogLoop acc ls i).entries =
      acc.entries ++ (ls.enumFrom i).filterMap (fun p => lineEntry p.2 p.1) := by
  induction ls generalizing acc i with
  | nil => simp [parseLogLoop]
  | cons l ls ih =>
    rw [parseLogLoop, ih, processLine_entries]
    rcases h : lineEntry l i with _ | e <;>
      simp [List.enumFrom, h, List.filterMap_cons]

/-- The entries of `parseLogText` are exactly the per-line entries of the
indexed lines, in order. -/
theorem parseLogText_entries (rawText : List Char) :
    (parseLogText rawText).entries =
      ((splitLines rawText).enum).filterMap (fun p => lineEntry p.2 p.1) := by
  rw [parseLogText, parseLogLoop_entries, List.enum]
  rfl

theorem parseTimeEntry_id (tm : Time × Time × List Char) (index : Nat) :
    (parseTimeEntry tm index).id = index + 1 := rfl

theorem lineEntry_id (line : List Char) (index : Nat) (e : Entry)
    (h : lineEntry line index = some e) : e.id = index + 1 := by
  unfold lineEntry at h
  dsimp only at h
  split at h
  · exact absurd h (by simp)
  split at h
  · exact absurd h (by simp)
  split at h
  · exact absurd h (by simp)
  obtain ⟨tm, _, rfl⟩ := Option.map_eq_some'.mp h
  exact parseTimeEntry_id tm index

/-- C9: every entry produced by the parser comes from the line at some
0-based position `i` of the split input and has `id = i + 1`; in
particular every parser-produced id is positive and `id = 0` is never
assigned by the parser. -/
theorem parser_entry_ids (rawText : List Char) :
    ∀ e ∈ (parseLogText rawText).entries,
      ∃ p ∈ (splitLines rawText).enum,
        lineEntry p.2 p.1 = some e ∧ e.id = p.1 + 1 ∧ e.id ≠ 0 := by
  intro e he
  rw [parseLogText_entries] at he
  obtain ⟨p, hp, hpe⟩ := List.mem_filterMap.mp he
  exact ⟨p, hp, hpe, lineEntry_id p.2 p.1 e hpe, by
    rw [lineEntry_id p.2 p.1 e hpe]; omega⟩

/-- Witness for C9 on a concrete two-line log (blank first line, a time
header on the second, 0-based index 1, so id 2). -/
theorem parser_entry_ids_witness :
    ∃ e ∈ (parseLogText "\n- 09:00 ~ 10:00 閱讀 ❚❚❚".data).entries,
      ∃ p ∈ (splitLines "\n- 09:00 ~ 10:00 閱讀 ❚❚❚".data).enum,
        lineEntry p.2 p.1 = some e ∧ e.id = p.1 + 1 ∧ e.id ≠ 0 := by
  have hmem :
      (parseTimeEntry (⟨9, 0⟩, ⟨10, 0⟩, " 閱讀 ❚❚❚".data) 1) ∈
        (parseLogText "\n- 09:00 ~ 10:00 閱讀 ❚❚❚".data).entries := by decide
  exact ⟨_, hmem, parser_entry_ids _ _ hmem⟩

/-- Ascending order on entries by `start`, as used by
`entries.sort((a, b) => a.start.localeCompare(b.start))`: `localeCompare`
on fixed-width zero-padded `"HH:MM"` strings is the lexicographic order
on `(hour, minute)`. -/
def entryLe (a b : Entry) : Prop :=
  a.start.hour < b.start.hour ∨
    (a.start.hour = b.start.hour ∧ a.start.minute ≤ b.start.minute)

instance : DecidableRel entryLe := fun a b => by
  unfold entryLe; infer_instance

instance : IsTotal Entry entryLe :=
  ⟨fun a b => by unfold entryLe; omega⟩

instance : IsTrans Entry entryLe :=
  ⟨fun a b c hab hbc => by unfold entryLe at *; omega⟩

/-- The fixed placeholder content of the synthetic sleep entry. -/
def sleepContent : List Char := "（自動補齊睡眠時段）".data

/-- The synthetic sleep entry prepended by `addSleepPeriodIfMissing` when
the day does not start at `00:00`. -/
def mkSleepEntry (firstStart : Time) : Entry :=
  { id := 0
    start := ⟨0, 0⟩
    «end» := firstStart
    content := sleepContent
    immersion := 0
    duration := calculateDuration ⟨0, 0⟩ firstStart
    category := CATEGORIES.RELAX_BED }

/-- Function `addSleepPeriodIfMissing` of `parser.js`: sort by start (stable JS
sort, modelled by the stable `insertionSort`), and if the earliest start
is not `"00:00"`, prepend the synthetic sleep entry. -/
def addSleepPeriodIfMissing (entries : List Entry) : List Entry :=
  if entries.length = 0 then entries
  else
    match List.insertionSort entryLe entries with
    | [] => []
    | first :: rest =>
      if first.start ≠ ⟨0, 0⟩ then mkSleepEntry first.start :: first :: rest
      else first :: rest

theorem entryLe_sleep (t : Time) (b : Entry) : entryLe (mkSleepEntry t) b := by
  have h1 : (mkSleepEntry t).start.hour = 0 := rfl
  have h2 : (mkSleepEntry t).start.minute = 0 := rfl
  unfold entryLe
  omega

theorem addSleepPeriodIfMissing_cons (l : List Entry) (first : Entry)
    (rest : List Entry) (hlen : l.length ≠ 0)
    (heq : List.insertionSort entryLe l = first :: rest) :
    addSleepPeriodIfMissing l =
      if first.start ≠ ⟨0, 0⟩ then mkSleepEntry first.start :: first :: rest
      else first :: rest := by
  unfold addSleepPeriodIfMissing
  rw [if_neg hlen, heq]

theorem addSleepPeriodIfMissing_head (l : List Entry) (h : l ≠ []) :
    ∃ first rest, List.insertionSort entryLe l = first :: rest ∧
      ((first.start ≠ ⟨0, 0⟩ ∧
        addSleepPeriodIfMissing l = mkSleepEntry first.start :: first :: rest) ∨
       (first.start = ⟨0, 0⟩ ∧ addSleepPeriodIfMissing l = first :: rest)) := by
  have hlen : l.length ≠ 0 := fun hl => h (List.length_eq_zero.mp hl)
  have hslen : (List.insertionSort entryLe l).length = l.length :=
    List.length_insertionSort entryLe l
  cases heq : List.insertionSort entryLe l with
  | nil =>
    rw [heq] at hslen
    simp only [List.length_nil] at hslen
    omega
  | cons first rest =>
    refine ⟨first, rest, rfl, ?_⟩
    by_cases h00 : first.start = ⟨0, 0⟩
    · exact Or.inr ⟨h00, by
        rw [addSleepPeriodIfMissing_cons l first rest hlen heq,
          if_neg (by simp [h00])]⟩
    · exact Or.inl ⟨h00, by
        rw [addSleepPeriodIfMissing_cons l first rest hlen heq, if_pos h00]⟩

theorem addSleepPeriodIfMissing_sorted (l : List Entry) :
    List.Sorted entryLe (addSleepPeriodIfMissing l) := by
  rcases eq_or_ne l [] with rfl | h
  · exact List.sorted_nil
  have hs := List.sorted_insertionSort entryLe l
  obtain ⟨first, rest, heq, hcase⟩ := addSleepPeriodIfMissing_head l h
  rw [heq] at hs
  rcases hcase with ⟨_, hres⟩ | ⟨_, hres⟩
  · rw [hres]
    exact List.sorted_cons.mpr ⟨fun b _ => entryLe_sleep first.start b, hs⟩
  · rw [hres]
    exact hs

theorem addSleepPeriodIfMissing_of_sorted (l : List Entry)
    (hsort : List.Sorted entryLe l)
    (hhead : ∃ first rest, l = first :: rest ∧ first.start = ⟨0, 0⟩) :
    addSleepPeriodIfMissing l = l := by
  obtain ⟨first, rest, rfl, h00⟩ := hhead
  rw [addSleepPeriodIfMissing_cons (first :: rest) first rest (by simp)
      hsort.insertionSort_eq, if_neg (by simp [h00])]

/-- C3: on a non-empty list, `addSleepPeriodIfMissing` returns a list
sorted ascending by start; when the earliest start is not `00:00` it
prepends exactly the synthetic entry with `id = 0`, `start = 00:00`,
`end` = earliest start, `immersion = 0`, the resting category, and
`duration = calculateDuration`; otherwise it only sorts; and the
function is idempotent. -/
theorem addSleepPeriodIfMissing_spec (l : List Entry) (h : l ≠ []) :
    List.Sorted entryLe (addSleepPeriodIfMissing l) ∧
    (∃ first rest, List.insertionSort entryLe l = first :: rest ∧
      ((first.start ≠ ⟨0, 0⟩ ∧
        addSleepPeriodIfMissing l =
          { id := 0, start := ⟨0, 0⟩, «end» := first.start,
            content := sleepContent, immersion := 0,
            duration := calculateDuration ⟨0, 0⟩ first.start,
            category := CATEGORIES.RELAX_BED } :: first :: rest) ∨
       (first.start = ⟨0, 0⟩ ∧
        addSleepPeriodIfMissing l = first :: rest))) ∧
    addSleepPeriodIfMissing (addSleepPeriodIfMissing l) =
      addSleepPeriodIfMissing l := by
  refine ⟨addSleepPeriodIfMissing_sorted l, addSleepPeriodIfMissing_head l h, ?_⟩
  obtain ⟨first, rest, heq, hcase⟩ := addSleepPeriodIfMissing_head l h
  apply addSleepPeriodIfMissing_of_sorted _ (addSleepPeriodIfMissing_sorted l)
  rcases hcase with ⟨_, hres⟩ | ⟨h00, hres⟩
  · exact ⟨mkSleepEntry first.start, first :: rest, hres, rfl⟩
  · exact ⟨first, rest, hres, h00⟩

/-- Witness for C3 on a concrete singleton list starting at 10:00. -/
theorem addSleepPeriodIfMissing_spec_witness :
    (List.Sorted entryLe (addSleepPeriodIfMissing
        [⟨2, ⟨10, 0⟩, ⟨11, 0⟩, [], 3, 60, CATEGORIES.ROUTINE⟩]) ∧
     (∃ first rest,
        List.insertionSort entryLe
            [⟨2, ⟨10, 0⟩, ⟨11, 0⟩, [], 3, 60, CATEGORIES.ROUTINE⟩] =
          first :: rest ∧
        ((first.start ≠ ⟨0, 0⟩ ∧
          addSleepPeriodIfMissing
              [⟨2, ⟨10, 0⟩, ⟨11, 0⟩, [], 3, 60, CATEGORIES.ROUTINE⟩] =
            { id := 0, start := ⟨0, 0⟩, «end» := first.start,
              content := sleepContent, immersion := 0,
              duration := calculateDuration ⟨0, 0⟩ first.start,
              category := CATEGORIES.RELAX_BED } :: first :: rest) ∨
         (first.start = ⟨0, 0⟩ ∧
          addSleepPeriodIfMissing
              [⟨2, ⟨10, 0⟩, ⟨11, 0⟩, [], 3, 60, CATEGORIES.ROUTINE⟩] =
            first :: rest))) ∧
     addSleepPeriodIfMissing (addSleepPeriodIfMissing
        [⟨2, ⟨10, 0⟩, ⟨11, 0⟩, [], 3, 60, CATEGORIES.ROUTINE⟩]) =
       addSleepPeriodIfMissing
        [⟨2, ⟨10, 0⟩, ⟨11, 0⟩, [], 3, 60, CATEGORIES.ROUTINE⟩]) :=
  addSleepPeriodIfMissing_spec
    [⟨2, ⟨10, 0⟩, ⟨11, 0⟩, [], 3, 60, CATEGORIES.ROUTINE⟩] (by simp)

/-- Test that `a` is a prefix of `b` (as a Bool). -/
def isPrefixChars : List Char → List Char → Bool
  | [], _ => true
  | _ :: _, [] => false
  | a :: as, b :: bs => a = b && isPrefixChars as bs

/-- Test that `needle` occurs as a contiguous substring of the haystack: the
semantics of matching a JS regex that is an alternation-free literal
against a string. -/
def containsSub (needle : List Char) : List Char → Bool
  | [] => isPrefixChars needle []
  | c :: cs => isPrefixChars needle (c :: cs) || containsSub needle cs

/-- Matching an alternation-of-literals regex such as
`/睡|sleep|nap|休息|放鬆/`: some alternative occurs as a substring. -/
def matchAnyOf (content : List Char) (kws : List (List Char)) : Bool :=
  kws.any (fun kw => containsSub kw content)

/-- The sleep/relaxation alternatives of the first regex in
`getCategoryByKeyword`. -/
def restKeywords : List (List Char) :=
  ["睡".data, "sleep".data, "nap".data, "休息".data, "放鬆".data]

/-- The work alternatives of the second regex in `getCategoryByKeyword`. -/
def workKeywords : List (List Char) :=
  ["slide".data, "工作".data, "開會".data, "meeting".data, "會議".data]

/-- The development alternatives of the third regex in
`getCategoryByKeyword`. -/
def devKeywords : List (List Char) :=
  ["讀書".data, "學習".data, "study".data, "learning".data, "閱讀".data, "開發".data]

/-- The family alternatives of the fourth regex in
`getCategoryByKeyword`. -/
def familyKeywords : List (List Char) :=
  ["家人".data, "父母".data, "爸".data, "媽".data, "family".data]

/-- Function `getCategoryByKeyword` of `api.js`: keyword rules in order, then the
start-hour rule, then the routine default.  `hour` is
`parseInt(startTime.split(':')[0])`, i.e. the hour field. -/
def getCategoryByKeyword (content : List Char) (startTime : Time) : String :=
  let lowerContent := content.map Char.toLower
  let hour := startTime.hour
  if matchAnyOf lowerContent restKeywords then CATEGORIES.RELAX_BED
  else if matchAnyOf lowerContent workKeywords then CATEGORIES.WORK
  else if matchAnyOf lowerContent devKeywords then CATEGORIES.DEVELOPMENT
  else if matchAnyOf lowerContent familyKeywords then CATEGORIES.FAMILY
  else if 0 ≤ hour ∧ hour < 7 then CATEGORIES.RELAX_BED
  else CATEGORIES.ROUTINE

/-- Function `categorizeWithKeywords` of `api.js`: assign every entry its keyword
category (in-place mutation modelled as a map). -/
def categorizeWithKeywords (entries : List Entry) : List Entry :=
  entries.map (fun e => { e with category := getCategoryByKeyword e.content e.start })

/-- The local-fallback decision procedure as worded by the spec (Contract
B), parameterized over the four keyword sets: (1) resting keyword →
resting; (2) work keyword → work; (3) development keyword → development;
(4) family keyword → family; (5) start hour in `[0, 7)` → resting;
(6) otherwise routine. -/
def specCategorizeLocal (krest kwork kdev kfam : List (List Char))
    (content : List Char) (startTime : Time) : String :=
  let lowerContent := content.map Char.toLower
  if matchAnyOf lowerContent krest then CATEGORIES.RELAX_BED
  else if matchAnyOf lowerContent kwork then CATEGORIES.WORK
  else if matchAnyOf lowerContent kdev then CATEGORIES.DEVELOPMENT
  else if matchAnyOf lowerContent kfam then CATEGORIES.FAMILY
  else if startTime.hour < 7 then CATEGORIES.RELAX_BED
  else CATEGORIES.ROUTINE

theorem getCategoryByKeyword_mem (content : List Char) (t : Time) :
    getCategoryByKeyword content t ∈ categorySet := by
  simp only [getCategoryByKeyword]
  split_ifs <;> simp [categorySet]

/-- C8: the local fallback is total and deterministic (it is a function),
agrees with the spec's six-step first-match-wins decision order over the
source's keyword sets, and always lands in the category set. -/
theorem getCategoryByKeyword_spec (content : List Char) (t : Time) :
    getCategoryByKeyword content t =
      specCategorizeLocal restKeywords workKeywords devKeywords familyKeywords
        content t ∧
    getCategoryByKeyword content t ∈ categorySet := by
  refine ⟨?_, getCategoryByKeyword_mem content t⟩
  unfold getCategoryByKeyword specCategorizeLocal
  simp only [Nat.zero_le, true_and]

/-- Function `categorizeWithAI` of `api.js`, modelled from after the transport and
JSON-parsing steps: `response` is `some cats` when `callGeminiApi`
succeeded and the cleaned response text parsed as a JSON array (of the
category strings), and `none` on transport failure, malformed envelope,
parse failure, or a non-array parse.  The result is `none` exactly when
the source throws; only the success branch carries mutated entries,
because the length validation precedes the `forEach` assignment. -/
def categorizeWithAI (entries : List Entry) (response : Option (List String)) :
    Option (List Entry) :=
  match response with
  | none => none
  | some categories =>
    if categories.length = entries.length then
      some ((entries.zip categories).map (fun p => { p.1 with category := p.2 }))
    else none

/-- The state of the (in-place mutated) entries array after a
`categorizeWithAI` call: unchanged when the call throws. -/
def categorizeWithAIResult (entries : List Entry)
    (response : Option (List String)) : List Entry :=
  (categorizeWithAI entries response).getD entries

/-- Unfolding lemma for the array branch of `categorizeWithAI`. -/
theorem categorizeWithAI_some (entries : List Entry) (cats : List String) :
    categorizeWithAI entries (some cats) =
      if cats.length = entries.length then
        some ((entries.zip cats).map (fun p => { p.1 with category := p.2 }))
      else none := rfl

/-- C7: when the response does not parse as a JSON array, or parses to an
array whose length differs from the entry count, `categorizeWithAI` fails
as a whole and no entry is mutated. -/
theorem categorizeWithAI_total_failure (entries : List Entry)
    (response : Option (List String))
    (h : response = none ∨
      ∃ cats, response = some cats ∧ cats.length ≠ entries.length) :
    categorizeWithAI entries response = none ∧
    categorizeWithAIResult entries response = entries := by
  rcases h with rfl | ⟨cats, rfl, hlen⟩
  · exact ⟨rfl, rfl⟩
  · unfold categorizeWithAIResult
    rw [categorizeWithAI_some, if_neg hlen]
    exact ⟨rfl, rfl⟩

/-- Witness for C7: a one-entry list with an empty-array response. -/
theorem categorizeWithAI_total_failure_witness :
    categorizeWithAI [⟨2, ⟨9, 0⟩, ⟨10, 0⟩, [], 3, 60, CATEGORIES.ROUTINE⟩]
        (some []) = none ∧
    categorizeWithAIResult [⟨2, ⟨9, 0⟩, ⟨10, 0⟩, [], 3, 60, CATEGORIES.ROUTINE⟩]
        (some []) = [⟨2, ⟨9, 0⟩, ⟨10, 0⟩, [], 3, 60, CATEGORIES.ROUTINE⟩] :=
  categorizeWithAI_total_failure _ _ (Or.inr ⟨[], rfl, by simp⟩)

/-- Counterexample to C1 as stated: a successful `categorizeWithAI` call
applies the response strings without checking membership in the category
set, so a response containing free text ends up verbatim in `category`. -/
theorem categorizeWithAI_free_text :
    categorizeWithAI [⟨2, ⟨9, 0⟩, ⟨10, 0⟩, [], 3, 60, CATEGORIES.ROUTINE⟩]
        (some ["自由文字"]) =
      some [⟨2, ⟨9, 0⟩, ⟨10, 0⟩, [], 3, 60, "自由文字"⟩] ∧
    "自由文字" ∉ categorySet := by
  constructor
  · rfl
  · decide

/-- C1 (amended): `category` is in the fixed six-element set after
parsing (the routine default), after local keyword categorization, and
after gap-filling; after a *successful* remote categorization it equals
the corresponding response string, so it is in the set provided every
response element is (the source applies the response without membership
validation); a failed remote call changes nothing. -/
theorem category_always_in_set :
    (∀ tm index, (parseTimeEntry tm index).category ∈ categorySet) ∧
    (∀ l, ∀ e ∈ categorizeWithKeywords l, e.category ∈ categorySet) ∧
    (∀ l, (∀ e ∈ l, e.category ∈ categorySet) →
      ∀ e ∈ addSleepPeriodIfMissing l, e.category ∈ categorySet) ∧
    (∀ l cats out, categorizeWithAI l (some cats) = some out →
      (∀ c ∈ cats, c ∈ categorySet) →
      ∀ e ∈ out, e.category ∈ categorySet) ∧
    (∀ l, categorizeWithAIResult l none = l) := by
  refine ⟨?_, ?_, ?_, ?_, fun _ => rfl⟩
  · intro tm index
    show CATEGORIES.ROUTINE ∈ categorySet
    simp [categorySet]
  · intro l e he
    obtain ⟨a, _, rfl⟩ := List.mem_map.mp he
    exact getCategoryByKeyword_mem a.content a.start
  · intro l hl e he
    rcases eq_or_ne l [] with rfl | hne
    · simp [addSleepPeriodIfMissing] at he
    obtain ⟨first, rest, heq, hcase⟩ := addSleepPeriodIfMissing_head l hne
    have hsortmem : ∀ x ∈ first :: rest, x.category ∈ categorySet := by
      intro x hx
      rw [← heq] at hx
      exact hl x ((List.mem_insertionSort entryLe).mp hx)
    rcases hcase with ⟨_, hres⟩ | ⟨_, hres⟩
    · rw [hres] at he
      rcases List.mem_cons.mp he with rfl | hx
      · show CATEGORIES.RELAX_BED ∈ categorySet
        simp [categorySet]
      · exact hsortmem e hx
    · rw [hres] at he
      exact hsortmem e he
  · intro l cats out hout hcats e he
    rw [categorizeWithAI_some] at hout
    split at hout
    · obtain rfl := Option.some_inj.mp hout
      obtain ⟨p, hp, rfl⟩ := List.mem_map.mp he
      exact hcats p.2 (List.of_mem_zip hp).2
    · exact absurd hout (by simp)

/-- Witness for C1 (amended) at concrete inputs: the parsed default, a
keyword-categorized entry, gap-filling over a well-categorized list, and
a successful remote call whose response stays inside the set. -/
theorem category_always_in_set_witness :
    (parseTimeEntry (⟨9, 0⟩, ⟨10, 0⟩, " 閱讀 ❚❚❚".data) 1).category ∈
      categorySet ∧
    (∀ e ∈ categorizeWithKeywords
        [⟨2, ⟨9, 0⟩, ⟨10, 0⟩, "閱讀".data, 3, 60, CATEGORIES.ROUTINE⟩],
      e.category ∈ categorySet) ∧
    (∀ e ∈ addSleepPeriodIfMissing
        [⟨2, ⟨9, 0⟩, ⟨10, 0⟩, "閱讀".data, 3, 60, CATEGORIES.DEVELOPMENT⟩],
      e.category ∈ categorySet) ∧
    (∀ e ∈ ([⟨2, ⟨9, 0⟩, ⟨10, 0⟩, "閱讀".data, 3, 60, CATEGORIES.WORK⟩] :
        List Entry),
      e.category ∈ categorySet) := by
  have h := category_always_in_set
  refine ⟨h.1 (⟨9, 0⟩, ⟨10, 0⟩, " 閱讀 ❚❚❚".data) 1, h.2.1 _, ?_, ?_⟩
  · exact h.2.2.1 _ (by decide)
  · exact h.2.2.2.1
      ([⟨2, ⟨9, 0⟩, ⟨10, 0⟩, "閱讀".data, 3, 60, CATEGORIES.ROUTINE⟩] : List Entry)
      [CATEGORIES.WORK] _ rfl (by decide)

/- The constant `THRESHOLDS.ENERGY_CHANGE` of `constants.js`. -/
namespace THRESHOLDS

def ENERGY_CHANGE : Int := 2

end THRESHOLDS

/-- Add `d` to the value stored under `key`, leaving the association list
unchanged when the key is absent (modelling `distribution[k] += d` on a JS
object whose keys are fixed up front). -/
def bumpLevel : List (Nat × Int) → Nat → Int → List (Nat × Int)
  | [], _, _ => []
  | (k, v) :: rest, key, d =>
    if k = key then (k, v + d) :: rest else (k, v) :: bumpLevel rest key d

/-- Function `calculateImmersionDistribution` of `analyzer.js`: an object with the
five fixed keys `5..1` all initialized to `0`, then for every entry with
immersion in `[1, 5]` the entry's duration is added under its immersion
level.  The JS object is modelled as an association list so that key
*presence* is faithful. -/
def calculateImmersionDistribution (entries : List Entry) : List (Nat × Int) :=
  entries.foldl
    (fun dist e =>
      if 1 ≤ e.immersion ∧ e.immersion ≤ 5 then bumpLevel dist e.immersion e.duration
      else dist)
    [(5, 0), (4, 0), (3, 0), (2, 0), (1, 0)]

/-- Value stored under a key of the association list (0 if absent). -/
def lookupLevel : List (Nat × Int) → Nat → Int
  | [], _ => 0
  | (k, v) :: rest, key => if k = key then v else lookupLevel rest key

theorem bumpLevel_keys (d : List (Nat × Int)) (k : Nat) (x : Int) :
    (bumpLevel d k x).map Prod.fst = d.map Prod.fst := by
  induction d with
  | nil => rfl
  | cons p rest ih =>
    obtain ⟨a, v⟩ := p
    unfold bumpLevel
    split <;> simp [ih]

theorem lookupLevel_bump_self (d : List (Nat × Int)) (k : Nat) (x : Int)
    (hk : k ∈ d.map Prod.fst) :
    lookupLevel (bumpLevel d k x) k = lookupLevel d k + x := by
  induction d with
  | nil => simp at hk
  | cons p rest ih =>
    obtain ⟨a, v⟩ := p
    by_cases ha : a = k
    · subst ha
      simp [bumpLevel, lookupLevel]
    · simp only [List.map_cons, List.mem_cons] at hk
      rcases hk with hk | hk
      · exact absurd hk.symm ha
      · simp [bumpLevel, lookupLevel, ha, ih hk]

theorem lookupLevel_bump_other (d : List (Nat × Int)) (k x : _) (k' : Nat)
    (h : k' ≠ k) :
    lookupLevel (bumpLevel d k x) k' = lookupLevel d k' := by
  induction d with
  | nil => rfl
  | cons p rest ih =>
    obtain ⟨a, v⟩ := p
    by_cases ha : a = k
    · subst ha
      have hne : a ≠ k' := fun hh => h hh.symm
      simp [bumpLevel, lookupLevel, hne]
    · simp [bumpLevel, lookupLevel, ha, ih]

theorem distFold_keys (l : List Entry) (dist : List (Nat × Int)) :
    ((l.foldl
        (fun dist e =>
          if 1 ≤ e.immersion ∧ e.immersion ≤ 5 then
            bumpLevel dist e.immersion e.duration
          else dist)
        dist).map Prod.fst) = dist.map Prod.fst := by
  induction l generalizing dist with
  | nil => rfl
  | cons e l ih =>
    rw [List.foldl_cons, ih]
    split
    · exact bumpLevel_keys dist e.immersion e.duration
    · rfl

theorem distFold_lookup (l : List Entry) (dist : List (Nat × Int))
    (hkeys : dist.map Prod.fst = [5, 4, 3, 2, 1]) (lvl : Nat)
    (h1 : 1 ≤ lvl) (h5 : lvl ≤ 5) :
    lookupLevel
        (l.foldl
          (fun dist e =>
            if 1 ≤ e.immersion ∧ e.immersion ≤ 5 then
              bumpLevel dist e.immersion e.duration
            else dist)
          dist) lvl =
      lookupLevel dist lvl +
        ((l.filter (fun e => e.immersion == lvl)).map Entry.duration).sum := by
  induction l generalizing dist with
  | nil => simp
  | cons e l ih =>
    rw [List.foldl_cons]
    by_cases hq : 1 ≤ e.immersion ∧ e.immersion ≤ 5
    · rw [if_pos hq]
      have hkeys' : (bumpLevel dist e.immersion e.duration).map Prod.fst =
          [5, 4, 3, 2, 1] := by rw [bumpLevel_keys, hkeys]
      rw [ih _ hkeys']
      by_cases heq : e.immersion = lvl
      · subst heq
        have hmem : e.immersion ∈ dist.map Prod.fst := by
          rw [hkeys]
          simp only [List.mem_cons]
          omega
        rw [lookupLevel_bump_self dist _ _ hmem]
        simp only [List.filter_cons, beq_self_eq_true, if_true, List.map_cons,
          List.sum_cons]
        omega
      · rw [lookupLevel_bump_other dist _ _ _ (fun hh => heq hh.symm)]
        have : (e.immersion == lvl) = false := by simp [heq]
        simp [List.filter_cons, this]
    · rw [if_neg hq]
      rw [ih _ hkeys]
      have : (e.immersion == lvl) = false := by
        simp only [beq_eq_false_iff_ne, ne_eq]
        omega
      simp [List.filter_cons, this]

/-- C10: the immersion distribution is defined on exactly the five levels
`5..1` (all always present), each level's value is the summed duration of
the entries with exactly that immersion, and appending an entry with
immersion `0` or above `5` changes nothing. -/
theorem calculateImmersionDistribution_spec (l : List Entry) :
    (calculateImmersionDistribution l).map Prod.fst = [5, 4, 3, 2, 1] ∧
    (∀ lvl, 1 ≤ lvl → lvl ≤ 5 →
      lookupLevel (calculateImmersionDistribution l) lvl =
        ((l.filter (fun e => e.immersion == lvl)).map Entry.duration).sum) ∧
    (∀ e, e.immersion = 0 ∨ 5 < e.immersion →
      calculateImmersionDistribution (l ++ [e]) =
        calculateImmersionDistribution l) := by
  refine ⟨distFold_keys l _, fun lvl h1 h5 => ?_, fun e he => ?_⟩
  · rw [calculateImmersionDistribution, distFold_lookup l _ (by rfl) lvl h1 h5]
    simp [lookupLevel]
  · unfold calculateImmersionDistribution
    rw [List.foldl_append]
    simp only [List.foldl_cons, List.foldl_nil]
    rw [if_neg (by omega)]

/-- Witness for C10 at a concrete list and level. -/
theorem calculateImmersionDistribution_spec_witness :
    lookupLevel (calculateImmersionDistribution
        [⟨2, ⟨9, 0⟩, ⟨10, 0⟩, [], 3, 60, CATEGORIES.ROUTINE⟩,
         ⟨3, ⟨10, 0⟩, ⟨11, 0⟩, [], 0, 60, CATEGORIES.ROUTINE⟩]) 3 =
      (([⟨2, ⟨9, 0⟩, ⟨10, 0⟩, [], 3, 60, CATEGORIES.ROUTINE⟩,
         ⟨3, ⟨10, 0⟩, ⟨11, 0⟩, [], 0, 60, CATEGORIES.ROUTINE⟩].filter
          (fun e => e.immersion == 3)).map Entry.duration).sum ∧
    calculateImmersionDistribution
        ([⟨2, ⟨9, 0⟩, ⟨10, 0⟩, [], 3, 60, CATEGORIES.ROUTINE⟩] ++
         [⟨3, ⟨10, 0⟩, ⟨11, 0⟩, [], 0, 60, CATEGORIES.ROUTINE⟩]) =
      calculateImmersionDistribution
        [⟨2, ⟨9, 0⟩, ⟨10, 0⟩, [], 3, 60, CATEGORIES.ROUTINE⟩] :=
  ⟨(calculateImmersionDistribution_spec _).2.1 3 (by decide) (by decide),
   (calculateImmersionDistribution_spec _).2.2 _ (Or.inl rfl)⟩

/-- One endpoint (`from` / `to`) of a transition record. -/
structure TransitionSide where
  content : List Char
  immersion : Nat
deriving DecidableEq, Repr

/-- A transition record emitted by `identifyEnergyTransitions`. -/
structure Transition where
  time : Time
  type : String
  difference : Int
  «from» : TransitionSide
  «to» : TransitionSide
deriving DecidableEq, Repr

/-- The record pushed for a consecutive pair whose immersion change meets
the threshold. -/
def mkTransition (previous current : Entry) : Transition :=
  let difference : Int := (current.immersion : Int) - (previous.immersion : Int)
  { time := current.start
    type := if difference > 0 then "increase" else "decrease"
    difference := difference
    «from» := ⟨previous.content, previous.immersion⟩
    «to» := ⟨current.content, current.immersion⟩ }

/-- The consecutive-pair loop of `identifyEnergyTransitions` (`i` from 1;
`previous` is the element before the remaining list). -/
def transLoop : Entry → List Entry → List Transition
  | _, [] => []
  | previous, current :: rest =>
    if THRESHOLDS.ENERGY_CHANGE ≤ |(current.immersion : Int) - (previous.immersion : Int)| then
      mkTransition previous current :: transLoop current rest
    else transLoop current rest

/-- The non-resting entries, in order (`entries.filter(entry =>
entry.category !== CATEGORIES.RELAX_BED)`). -/
def activeOf (entries : List Entry) : List Entry :=
  entries.filter (fun e => e.category != CATEGORIES.RELAX_BED)

/-- Function `identifyEnergyTransitions` of `analyzer.js`. -/
def identifyEnergyTransitions (entries : List Entry) : List Transition :=
  match activeOf entries with
  | [] => []
  | a :: rest => transLoop a rest

theorem identifyEnergyTransitions_cons (l : List Entry) (a : Entry)
    (rest : List Entry) (ha : activeOf l = a :: rest) :
    identifyEnergyTransitions l = transLoop a rest := by
  unfold identifyEnergyTransitions
  rw [ha]

theorem transLoop_eq (previous : Entry) (rest : List Entry) :
    transLoop previous rest =
      ((previous :: rest).zip rest).filterMap
        (fun p =>
          if THRESHOLDS.ENERGY_CHANGE ≤ |(p.2.immersion : Int) - (p.1.immersion : Int)| then
            some (mkTransition p.1 p.2)
          else none) := by
  induction rest generalizing previous with
  | nil => rfl
  | cons current rest ih =>
    unfold transLoop
    rw [List.zip_cons_cons, List.filterMap_cons]
    split <;> rw [ih]

theorem transLoop_length (previous : Entry) (rest : List Entry) :
    (transLoop previous rest).length ≤ rest.length := by
  induction rest generalizing previous with
  | nil => exact Nat.le_refl 0
  | cons current rest ih =>
    unfold transLoop
    split
    · simpa using Nat.succ_le_succ (ih current)
    · exact Nat.le_succ_of_le (ih current)

/-- C5 (amended): the transitions are exactly the consecutive pairs of the
resting-filtered sequence whose absolute immersion difference meets the
threshold 2, in order; when at least one active entry exists the result
is strictly shorter than the active sequence; with no active entries the
result is empty (and *not* strictly shorter, against the claim's
unconditional strict bound). -/
theorem identifyEnergyTransitions_spec (l : List Entry) :
    identifyEnergyTransitions l =
      ((activeOf l).zip ((activeOf l).drop 1)).filterMap
        (fun p =>
          if THRESHOLDS.ENERGY_CHANGE ≤ |(p.2.immersion : Int) - (p.1.immersion : Int)| then
            some (mkTransition p.1 p.2)
          else none) ∧
    (activeOf l ≠ [] →
      (identifyEnergyTransitions l).length < (activeOf l).length) ∧
    (activeOf l = [] → identifyEnergyTransitions l = []) := by
  cases ha : activeOf l with
  | nil =>
    have h0 : identifyEnergyTransitions l = [] := by
      unfold identifyEnergyTransitions
      rw [ha]
    rw [h0]
    exact ⟨rfl, fun h => absurd rfl h, fun _ => rfl⟩
  | cons a rest =>
    rw [identifyEnergyTransitions_cons l a rest ha]
    refine ⟨?_, fun _ => ?_, fun h => absurd h (by simp)⟩
    · rw [transLoop_eq]
      rfl
    · have := transLoop_length a rest
      simp only [List.length_cons]
      omega

/-- Counterexample to C5 as stated: with a single resting entry the
filtered active sequence is empty, and the empty transition list is not
strictly shorter than it. -/
theorem identifyEnergyTransitions_length_not_strict :
    ¬ ((identifyEnergyTransitions
          [⟨0, ⟨0, 0⟩, ⟨9, 0⟩, [], 0, 540, CATEGORIES.RELAX_BED⟩]).length <
        (activeOf
          [⟨0, ⟨0, 0⟩, ⟨9, 0⟩, [], 0, 540, CATEGORIES.RELAX_BED⟩]).length) := by
  decide

/-- Witness for C5 (amended) on a concrete active pair with immersion jump
3 → 5 (difference 2, so one transition; 1 < 2 active entries). -/
theorem identifyEnergyTransitions_spec_witness :
    (activeOf
        [⟨2, ⟨9, 0⟩, ⟨10, 0⟩, [], 3, 60, CATEGORIES.WORK⟩,
         ⟨3, ⟨10, 0⟩, ⟨11, 0⟩, [], 5, 60, CATEGORIES.WORK⟩] ≠ [] →
      (identifyEnergyTransitions
          [⟨2, ⟨9, 0⟩, ⟨10, 0⟩, [], 3, 60, CATEGORIES.WORK⟩,
           ⟨3, ⟨10, 0⟩, ⟨11, 0⟩, [], 5, 60, CATEGORIES.WORK⟩]).length <
        (activeOf
          [⟨2, ⟨9, 0⟩, ⟨10, 0⟩, [], 3, 60, CATEGORIES.WORK⟩,
           ⟨3, ⟨10, 0⟩, ⟨11, 0⟩, [], 5, 60, CATEGORIES.WORK⟩]).length) ∧
    activeOf
        [⟨2, ⟨9, 0⟩, ⟨10, 0⟩, [], 3, 60, CATEGORIES.WORK⟩,
         ⟨3, ⟨10, 0⟩, ⟨11, 0⟩, [], 5, 60, CATEGORIES.WORK⟩] ≠ [] :=
  ⟨(identifyEnergyTransitions_spec _).2.1, by decide⟩

/-- Per-category accumulator of `analyzeImmersionByCategory`:
`totalImmersion` is `Σ immersion × duration`, `totalTime` is `Σ duration`
over the qualifying entries of the category.  The reported
`averageImmersion` is their quotient (see `CatStat.averageImmersion`). -/
structure CatStat where
  category : String
  totalImmersion : Int
  totalTime : Int
deriving DecidableEq, Repr

/-- The update `categoryStats[entry.category].totalImmersion += immersion * duration;
... .totalTime += duration`, creating the zero accumulator on first
sight of a key; JS object insertion order is first-occurrence order,
modelled by appending new keys at the end. -/
def bumpCatStat : List CatStat → String → Nat → Int → List CatStat
  | [], cat, imm, dur => [⟨cat, (imm : Int) * dur, dur⟩]
  | s :: rest, cat, imm, dur =>
    if s.category = cat then
      ⟨s.category, s.totalImmersion + (imm : Int) * dur, s.totalTime + dur⟩ :: rest
    else s :: bumpCatStat rest cat imm dur

/-- The grouping pass of `analyzeImmersionByCategory`: skip resting
entries and entries with immersion 0, accumulate the rest by category. -/
def collectCatStats (entries : List Entry) : List CatStat :=
  entries.foldl
    (fun stats e =>
      if e.category = CATEGORIES.RELAX_BED ∨ e.immersion = 0 then stats
      else bumpCatStat stats e.category e.immersion e.duration)
    []

/-- The `averageImmersion` of a record,
`stats.totalImmersion / stats.totalTime`, as an exact rational (the
source rounds it to one decimal with `toFixed(1)` for display; a zero
`totalTime` gives `NaN` in JS, modelled here by the denominator being
zero). -/
def CatStat.averageImmersion (s : CatStat) : ℚ :=
  (s.totalImmersion : ℚ) / (s.totalTime : ℚ)

/-- The descending-average order of the final
`analysis.sort((a, b) => b.averageImmersion - a.averageImmersion)`. -/
def avgGe (a b : CatStat) : Prop :=
  b.averageImmersion ≤ a.averageImmersion

instance : DecidableRel avgGe := fun a b => by
  unfold avgGe; infer_instance

/-- Function `analyzeImmersionByCategory` of `analyzer.js`: group and accumulate,
then sort descending by average immersion (stable JS sort, modelled by
the stable `insertionSort`). -/
def analyzeImmersionByCategory (entries : List Entry) : List CatStat :=
  List.insertionSort avgGe (collectCatStats entries)

theorem bumpCatStat_inv (P : CatStat → Prop) (stats : List CatStat)
    (cat : String) (imm : Nat) (dur : Int)
    (hnew : P ⟨cat, (imm : Int) * dur, dur⟩)
    (hupd : ∀ s, P s → s.category = cat →
      P ⟨s.category, s.totalImmersion + (imm : Int) * dur, s.totalTime + dur⟩)
    (hstats : ∀ s ∈ stats, P s) :
    ∀ s ∈ bumpCatStat stats cat imm dur, P s := by
  induction stats with
  | nil =>
    intro s hs
    simp only [bumpCatStat, List.mem_singleton] at hs
    exact hs ▸ hnew
  | cons head rest ih =>
    intro s hs
    unfold bumpCatStat at hs
    split at hs
    · rcases List.mem_cons.mp hs with rfl | hmem
      · exact hupd head (hstats head (List.mem_cons_self head rest)) (by assumption)
      · exact hstats s (List.mem_cons_of_mem head hmem)
    · rcases List.mem_cons.mp hs with rfl | hmem
      · exact hstats s (List.mem_cons_self s rest)
      · exact ih (fun x hx => hstats x (List.mem_cons_of_mem head hx)) s hmem

theorem collectCatStats_inv (P : CatStat → Prop) (l : List Entry)
    (hstep : ∀ e ∈ l, e.category ≠ CATEGORIES.RELAX_BED → e.immersion ≠ 0 →
      (P ⟨e.category, (e.immersion : Int) * e.duration, e.duration⟩ ∧
       ∀ s, P s → s.category = e.category →
        P ⟨s.category, s.totalImmersion + (e.immersion : Int) * e.duration,
           s.totalTime + e.duration⟩)) :
    ∀ s ∈ collectCatStats l, P s := by
  suffices h : ∀ stats, (∀ s ∈ stats, P s) →
      ∀ s ∈ l.foldl
        (fun stats e =>
          if e.category = CATEGORIES.RELAX_BED ∨ e.immersion = 0 then stats
          else bumpCatStat stats e.category e.immersion e.duration)
        stats, P s by
    exact h [] (by simp)
  induction l with
  | nil => intro stats hstats; simpa using hstats
  | cons e l ih =>
    intro stats hstats s hs
    rw [List.foldl_cons] at hs
    have he : e ∈ e :: l := List.mem_cons_self e l
    by_cases hskip : e.category = CATEGORIES.RELAX_BED ∨ e.immersion = 0
    · rw [if_pos hskip] at hs
      exact ih (fun x hx hcat himm => hstep x (List.mem_cons_of_mem e hx) hcat himm)
        stats hstats s hs
    · rw [if_neg hskip] at hs
      push_neg at hskip
      obtain ⟨hnew, hupd⟩ := hstep e he hskip.1 hskip.2
      exact ih (fun x hx hcat himm => hstep x (List.mem_cons_of_mem e hx) hcat himm)
        _ (bumpCatStat_inv P stats e.category e.immersion e.duration hnew hupd hstats)
        s hs

/-- C4 (amended): the immersion-by-category analysis never contains a
record for the resting category; and provided every entry has positive
duration, every record has positive `totalTime`, so the
`averageImmersion` quotient has a nonzero denominator (no NaN).  The
unconditional no-NaN claim fails: a qualifying entry of zero duration
(start equal to end) puts its category in the result with
`totalTime = 0`. -/
theorem analyzeImmersionByCategory_spec (l : List Entry) :
    (∀ rec ∈ analyzeImmersionByCategory l,
      rec.category ≠ CATEGORIES.RELAX_BED) ∧
    ((∀ e ∈ l, 0 < e.duration) →
      ∀ rec ∈ analyzeImmersionByCategory l, 0 < rec.totalTime) := by
  constructor
  · intro rec hrec
    have hmem : rec ∈ collectCatStats l :=
      (List.mem_insertionSort avgGe).mp hrec
    exact collectCatStats_inv (fun s => s.category ≠ CATEGORIES.RELAX_BED) l
      (fun e _ hcat _ => ⟨hcat, fun s hs _ => hs⟩) rec hmem
  · intro hdur rec hrec
    have hmem : rec ∈ collectCatStats l :=
      (List.mem_insertionSort avgGe).mp hrec
    exact collectCatStats_inv (fun s => 0 < s.totalTime) l
      (fun e hel _ _ =>
        ⟨hdur e hel, fun s hs _ => by
          have := hdur e hel
          simp only
          omega⟩) rec hmem

/-- Witness for C4 (amended) on a concrete positive-duration list. -/
theorem analyzeImmersionByCategory_spec_witness :
    (∀ rec ∈ analyzeImmersionByCategory
        [⟨2, ⟨9, 0⟩, ⟨10, 0⟩, [], 3, 60, CATEGORIES.WORK⟩,
         ⟨3, ⟨10, 0⟩, ⟨11, 0⟩, [], 0, 60, CATEGORIES.RELAX_BED⟩],
      rec.category ≠ CATEGORIES.RELAX_BED) ∧
    (∀ rec ∈ analyzeImmersionByCategory
        [⟨2, ⟨9, 0⟩, ⟨10, 0⟩, [], 3, 60, CATEGORIES.WORK⟩,
         ⟨3, ⟨10, 0⟩, ⟨11, 0⟩, [], 0, 60, CATEGORIES.RELAX_BED⟩],
      0 < rec.totalTime) :=
  ⟨(analyzeImmersionByCategory_spec _).1,
   (analyzeImmersionByCategory_spec _).2 (by decide)⟩

/-- Counterexample to C4 as stated: a single qualifying entry (work,
immersion 3) of zero duration (09:00 ~ 09:00) yields a record whose
category has zero qualifying duration, present with `totalTime = 0` —
the JS `averageImmersion` is `0/0 = NaN`, not absent. -/
theorem analyzeImmersionByCategory_nan :
    analyzeImmersionByCategory [⟨1, ⟨9, 0⟩, ⟨9, 0⟩, [], 3, 0, CATEGORIES.WORK⟩] =
      [⟨CATEGORIES.WORK, 0, 0⟩] ∧
    (⟨CATEGORIES.WORK, 0, 0⟩ : CatStat).totalTime = 0 :=
  ⟨rfl, rfl⟩

/-- JS `Math.round`: round half towards positive infinity. -/
def jsRound (q : ℚ) : Int := ⌊q + 1 / 2⌋

/-- The `productiveCategories` list of `calculateProductivityScore`. -/
def productiveCategories : List String :=
  [CATEGORIES.WORK, CATEGORIES.DEVELOPMENT]

/-- The accumulation loop of `calculateProductivityScore`:
`(productiveHighImmersionTime, totalActiveTime)`. -/
def productivityTotals (entries : List Entry) : Int × Int :=
  entries.foldl
    (fun acc e =>
      if e.category = CATEGORIES.RELAX_BED then acc
      else
        (if e.category ∈ productiveCategories ∧ 4 ≤ e.immersion then
           acc.1 + e.duration
         else acc.1,
         acc.2 + e.duration))
    (0, 0)

/-- Function `calculateProductivityScore` of `analyzer.js`. -/
def calculateProductivityScore (entries : List Entry) : Int :=
  let totals := productivityTotals entries
  if totals.2 = 0 then 0
  else jsRound ((totals.1 : ℚ) / (totals.2 : ℚ) * 100)

/-- The Boolean filter for non-resting entries counted in
`totalActiveTime`. -/
def isActive (e : Entry) : Bool :=
  e.category != CATEGORIES.RELAX_BED

/-- The Boolean filter for minutes counted in
`productiveHighImmersionTime`. -/
def isProductiveHigh (e : Entry) : Bool :=
  e.category != CATEGORIES.RELAX_BED &&
    (e.category == CATEGORIES.WORK || e.category == CATEGORIES.DEVELOPMENT) &&
    4 ≤ e.immersion

theorem productivityTotals_eq (l : List Entry) :
    productivityTotals l =
      (((l.filter isProductiveHigh).map Entry.duration).sum,
       ((l.filter isActive).map Entry.duration).sum) := by
  suffices h : ∀ acc : Int × Int,
      l.foldl
        (fun acc e =>
          if e.category = CATEGORIES.RELAX_BED then acc
          else
            (if e.category ∈ productiveCategories ∧ 4 ≤ e.immersion then
               acc.1 + e.duration
             else acc.1,
             acc.2 + e.duration))
        acc =
      (acc.1 + ((l.filter isProductiveHigh).map Entry.duration).sum,
       acc.2 + ((l.filter isActive).map Entry.duration).sum) by
    have := h (0, 0)
    simpa using this
  induction l with
  | nil => intro acc; simp
  | cons e l ih =>
    intro acc
    rw [List.foldl_cons]
    by_cases hrest : e.category = CATEGORIES.RELAX_BED
    · have h1 : isProductiveHigh e = false := by
        simp [isProductiveHigh, hrest]
      have h2 : isActive e = false := by
        simp [isActive, hrest]
      rw [if_pos hrest, ih]
      simp [List.filter_cons, h1, h2]
    · have h2 : isActive e = true := by
        simp [isActive, hrest]
      rw [if_neg hrest, ih]
      by_cases hprod : e.category ∈ productiveCategories ∧ 4 ≤ e.immersion
      · obtain ⟨hc, hi⟩ := hprod
        simp only [productiveCategories, List.mem_cons,
          List.not_mem_nil, or_false] at hc
        have h1 : isProductiveHigh e = true := by
          rcases hc with hc | hc <;> simp [isProductiveHigh, hrest, hc, hi] <;>
            decide
        rw [if_pos ⟨by simp [productiveCategories]; tauto, hi⟩]
        simp [List.filter_cons, h1, h2, Prod.ext_iff]
        omega
      · have h1 : isProductiveHigh e = false := by
          by_cases hc : e.category = CATEGORIES.WORK ∨
              e.category = CATEGORIES.DEVELOPMENT
          · have hi : ¬ 4 ≤ e.immersion := fun hi =>
              hprod ⟨by simp [productiveCategories]; tauto, hi⟩
            rcases hc with hc | hc <;> simp [isProductiveHigh, hc, hi]
          · have hor : (e.category == CATEGORIES.WORK ||
                e.category == CATEGORIES.DEVELOPMENT) = false := by
              simp only [Bool.or_eq_false_iff, beq_eq_false_iff_ne, ne_eq]
              tauto
            simp [isProductiveHigh, hor]
        rw [if_neg hprod]
        simp [List.filter_cons, h1, h2, Prod.ext_iff]
        omega

/-- Unfolding lemma for `calculateProductivityScore`. -/
theorem calculateProductivityScore_eq (l : List Entry) :
    calculateProductivityScore l =
      if (productivityTotals l).2 = 0 then 0
      else jsRound (((productivityTotals l).1 : ℚ) /
        ((productivityTotals l).2 : ℚ) * 100) := rfl

theorem jsRound_zero : jsRound 0 = 0 := by
  unfold jsRound
  rw [zero_add, Int.floor_eq_iff]
  norm_num

theorem jsRound_hundred : jsRound 100 = 100 := by
  unfold jsRound
  rw [Int.floor_eq_iff]
  norm_num

/-- C6: the productivity score equals
`round(100 × productiveHighImmersionMinutes / totalActiveMinutes)` where
the totals sum durations over the non-resting entries (all of them for
the denominator, the work/development ones with immersion ≥ 4 for the
numerator); it is exactly 0 when the total active time is 0, and exactly
100 when there is active time and every non-resting entry is
work/development with immersion ≥ 4. -/
theorem calculateProductivityScore_spec (l : List Entry) :
    calculateProductivityScore l =
      jsRound (100 * ((productivityTotals l).1 : ℚ) /
        ((productivityTotals l).2 : ℚ)) ∧
    (productivityTotals l).2 = ((l.filter isActive).map Entry.duration).sum ∧
    (productivityTotals l).1 =
      ((l.filter isProductiveHigh).map Entry.duration).sum ∧
    ((productivityTotals l).2 = 0 → calculateProductivityScore l = 0) ∧
    ((∀ e ∈ l, e.category ≠ CATEGORIES.RELAX_BED →
        (e.category = CATEGORIES.WORK ∨ e.category = CATEGORIES.DEVELOPMENT) ∧
          4 ≤ e.immersion) →
      (productivityTotals l).2 ≠ 0 → calculateProductivityScore l = 100) := by
  have hchar := productivityTotals_eq l
  refine ⟨?_, by rw [hchar], by rw [hchar], ?_, ?_⟩
  · rw [calculateProductivityScore_eq]
    by_cases ht : (productivityTotals l).2 = 0
    · rw [if_pos ht, ht]
      norm_num [jsRound_zero]
    · rw [if_neg ht]
      congr 1
      ring
  · intro ht
    rw [calculateProductivityScore_eq, if_pos ht]
  · intro hall ht
    have hfil : l.filter isProductiveHigh = l.filter isActive := by
      apply List.filter_congr
      intro e hel
      by_cases hrest : e.category = CATEGORIES.RELAX_BED
      · simp [isProductiveHigh, isActive, hrest]
      · obtain ⟨hc, hi⟩ := hall e hel hrest
        have h2 : isActive e = true := by simp [isActive, hrest]
        have h1 : isProductiveHigh e = true := by
          rcases hc with hc | hc <;> simp [isProductiveHigh, hc, hi] <;> decide
        rw [h1, h2]
    have hpt : (productivityTotals l).1 = (productivityTotals l).2 := by
      rw [hchar]
      simp only [hfil]
    rw [calculateProductivityScore_eq, if_neg ht, hpt,
      div_self (by exact_mod_cast ht), one_mul]
    exact jsRound_hundred

/-- Witness for C6: full marks on a single high-immersion work entry, and
0 on the empty list (zero active minutes). -/
theorem calculateProductivityScore_spec_witness :
    calculateProductivityScore
        [⟨2, ⟨9, 0⟩, ⟨10, 0⟩, [], 5, 60, CATEGORIES.WORK⟩] = 100 ∧
    calculateProductivityScore [] = 0 :=
  ⟨(calculateProductivityScore_spec
      [⟨2, ⟨9, 0⟩, ⟨10, 0⟩, [], 5, 60, CATEGORIES.WORK⟩]).2.2.2.2
      (by decide) (by decide),
   (calculateProductivityScore_spec []).2.2.2.1 (by decide)⟩

end JournalViz
